import Mathlib

/-!
Verification development for the GhostWiki note store.

The embedding below models, from the repository sources:
  - src/main.py           : the path codec (path_to_filename / filename_to_parts)
  - src/src/crypto_manager.py : GhostCrypto (password-derived-key envelope)
  - src/src/file_manager.py   : FileManager (master-key envelope, note file I/O)
  - src/src/sync_manager.py   : SyncManager (git pull/push coordination)

Python strings are modelled as Lean String (or List Char where character-level
reasoning is needed); byte strings as List Nat.  Python str.replace and
str.split are modelled by the executable functions listReplace / listSplit
below, faithful to Python semantics (leftmost, non-overlapping occurrences).

The external cryptography library (Fernet and PBKDF2HMAC) is not part of the
repository; it is modelled by the Fernet structure of abstract operations
together with Fernet.Sound, the documented contract of an authenticated
encryption scheme (decryption inverts encryption; any single-byte modification,
truncation, empty input, or wrong key is rejected; the KDF is collision-free).
A concrete executable instance, toyFernet, is provided and proved Sound so
that every theorem can be exercised on concrete inputs.
-/

set_option maxRecDepth 4000

namespace GhostWiki

/-- Fuel-driven worker for listReplace; fuel is always at least the length of
the remaining input, so the fuel-exhausted arm is never reached on the lists
we feed it. Structural recursion on fuel keeps the function kernel-reducible. -/
def replAux (pat rep : List Char) : Nat → List Char → List Char
  | _, [] => []
  | 0, l => l
  | fuel + 1, c :: cs =>
    if pat.isPrefixOf (c :: cs) then
      rep ++ replAux pat rep fuel (cs.drop (pat.length - 1))
    else
      c :: replAux pat rep fuel cs

/-- Model of Python str.replace(pat, rep): replaces every occurrence of pat,
scanning left to right, without rescanning the replacement text. -/
def listReplace (pat rep l : List Char) : List Char :=
  replAux pat rep l.length l

/-- Fuel-driven worker for listSplit. -/
def splitAux (pat : List Char) : Nat → List Char → List (List Char)
  | _, [] => [[]]
  | 0, l => [l]
  | fuel + 1, c :: cs =>
    if pat.isPrefixOf (c :: cs) then
      [] :: splitAux pat fuel (cs.drop (pat.length - 1))
    else
      match splitAux pat fuel cs with
      | g :: gs => (c :: g) :: gs
      | [] => [[c]]

/-- Model of Python str.split(pat) for a non-empty pattern: splits at each
leftmost occurrence of pat; adjacent separators yield empty fields, and the
split of the empty string is [""], as in Python. -/
def listSplit (pat l : List Char) : List (List Char) :=
  splitAux pat l.length l

/-- Specification helper: substitution of a single character by a string,
applied to every occurrence. Proved equal to listReplace with a one-character
pattern. -/
def charSubst (c : Char) (rep : List Char) : List Char → List Char
  | [] => []
  | d :: ds => (if d = c then rep else [d]) ++ charSubst c rep ds

/-- Character substitution used by the encoder: space becomes underscore. -/
def spaceUnd (d : Char) : Char := if d = ' ' then '_' else d

/-- Character substitution used by the decoder: underscore becomes space. -/
def undSpace (d : Char) : Char := if d = '_' then ' ' else d

/-- Model of Python sep.join(parts) (claim-level: the hierarchical page path
is the slash-join of its segments). -/
def joinSep (sep : List Char) : List (List Char) → List Char
  | [] => []
  | [p] => p
  | p :: ps => p ++ sep ++ joinSep sep ps

/-- Reserved separator token of the path codec (SEP = two underscores,
src/main.py line 70). -/
def SEP : List Char := ['_', '_']

/-- Model of path_to_filename (src/main.py lines 72-73):
path.replace("/", SEP).replace(" ", "_") + ".ghost". -/
def path_to_filename (path : List Char) : List Char :=
  listReplace [' '] ['_'] (listReplace ['/'] SEP path) ++ ".ghost".data

/-- Model of filename_to_parts (src/main.py lines 75-77):
stem = filename.replace(".ghost", ""); [p.replace("_", " ") for p in stem.split(SEP)]. -/
def filename_to_parts (filename : List Char) : List (List Char) :=
  (listSplit SEP (listReplace ".ghost".data [] filename)).map
    (listReplace ['_'] [' '])

/-- Segment restrictions under which the amended round-trip statement of the
path codec holds: no underscore, no slash, no occurrence of ".ghost", no two
adjacent spaces, and no trailing space. -/
@[reducible] def goodSeg (seg : List Char) : Prop :=
  '_' ∉ seg ∧ '/' ∉ seg ∧ ¬ (".ghost".data <:+: seg) ∧
    ¬ ([' ', ' '] <:+: seg) ∧ seg.getLast? ≠ some ' '

/-- Abstract operations of the external cryptography library: Fernet
authenticated encryption (explicit nonce standing for its internal fresh IV),
the PBKDF2HMAC key derivation, and Python str.encode / bytes.decode.  These
are library primitives, not repository code; their contract is
Fernet.Sound below. -/
structure Fernet where
  fencrypt : List Nat → List Nat → List Nat → List Nat
  fdecrypt : List Nat → List Nat → Option (List Nat)
  derive : List Nat → List Nat → List Nat
  strEncode : String → List Nat
  strDecode : List Nat → Option String

/-- Documented contract of the library primitives, as an ideal authenticated
encryption scheme: decryption inverts encryption under the same key; a wrong
key, any single-byte modification of a token, any strict truncation of a
token, and the empty byte string are all rejected; key derivation is
collision-free; decoding inverts encoding of text. -/
structure Fernet.Sound (F : Fernet) : Prop where
  roundtrip : ∀ k nonce msg, F.fdecrypt k (F.fencrypt k nonce msg) = some msg
  wrongKey : ∀ k k2 nonce msg, k2 ≠ k → F.fdecrypt k2 (F.fencrypt k nonce msg) = none
  flipTamper : ∀ k nonce msg i b, ∀ h : i < (F.fencrypt k nonce msg).length,
    b ≠ (F.fencrypt k nonce msg).get ⟨i, h⟩ →
    F.fdecrypt k ((F.fencrypt k nonce msg).set i b) = none
  truncTamper : ∀ k nonce msg j, j < (F.fencrypt k nonce msg).length →
    F.fdecrypt k ((F.fencrypt k nonce msg).take j) = none
  emptyInvalid : ∀ k, F.fdecrypt k [] = none
  deriveInj : ∀ p p2 s s2, F.derive p s = F.derive p2 s2 → p = p2 ∧ s = s2
  strRoundtrip : ∀ s, F.strDecode (F.strEncode s) = some s

/-- Outcome of GhostCrypto.decrypt_content: the decrypted plaintext, the typed
InvalidToken failure raised by Fernet (the DecryptionFailure of the spec), or
a UnicodeDecodeError from the final .decode() (which would be an unqualified
exception escaping decrypt_content). -/
inductive DecryptResult where
  | ok (plaintext : String)
  | invalidToken
  | unicodeError
deriving DecidableEq

/-- Model of the GhostCrypto object (src/src/crypto_manager.py line 7): it
holds the password from which per-operation keys are derived. -/
structure GhostCrypto where
  password : String

/-- Model of GhostCrypto.encrypt_content (src/src/crypto_manager.py lines
22-31): generate a 16-byte salt (passed explicitly here, standing for
os.urandom(16)), derive the key from the stored password and the salt, and
return salt ++ Fernet-encrypted payload. -/
def GhostCrypto.encrypt_content (F : Fernet) (g : GhostCrypto)
    (salt nonce : List Nat) (plaintext : String) : List Nat :=
  salt ++ F.fencrypt (F.derive (F.strEncode g.password) salt) nonce (F.strEncode plaintext)

/-- Model of GhostCrypto.decrypt_content (src/src/crypto_manager.py lines
33-43): the first 16 bytes are the salt, the rest the Fernet token; derive the
key and decrypt, then decode the plaintext bytes.  No exception handling is
present in the source, so each failure mode is surfaced as its own result. -/
def GhostCrypto.decrypt_content (F : Fernet) (g : GhostCrypto)
    (file_bytes : List Nat) : DecryptResult :=
  let salt := file_bytes.take 16
  let encrypted_data := file_bytes.drop 16
  let key := F.derive (F.strEncode g.password) salt
  match F.fdecrypt key encrypted_data with
  | none => DecryptResult.invalidToken
  | some bs =>
    match F.strDecode bs with
    | some s => DecryptResult.ok s
    | none => DecryptResult.unicodeError

/-- Length-framed injective encoding of (key, nonce, message) used by the toy
library instance. -/
def encodeBody (k r m : List Nat) : List Nat :=
  k.length :: (k ++ (r.length :: (r ++ (m.length :: m))))

/-- Helper for decoding: split a list at n, failing when fewer than n
elements remain. -/
def splitAt? (n : Nat) (l : List Nat) : Option (List Nat × List Nat) :=
  if n ≤ l.length then some (l.take n, l.drop n) else none

/-- Decoder of encodeBody, rejecting any input that does not consume
exactly. -/
def decodeBody (body : List Nat) : Option (List Nat × List Nat × List Nat) :=
  match body with
  | [] => none
  | klen :: rest =>
    match splitAt? klen rest with
    | none => none
    | some (k, rest1) =>
      match rest1 with
      | [] => none
      | rlen :: rest2 =>
        match splitAt? rlen rest2 with
        | none => none
        | some (r, rest3) =>
          match rest3 with
          | [] => none
          | mlen :: m => if m.length = mlen then some (k, r, m) else none

/-- Toy token format: total length, checksum, then the framed body.  The
length and checksum headers make every single-byte modification and every
strict truncation detectable, which is what Fernet.Sound demands. -/
def toyEncrypt (k nonce msg : List Nat) : List Nat :=
  let body := encodeBody k nonce msg
  body.length :: body.sum :: body

/-- Toy decryption: check the length and checksum headers, decode the body,
and compare the embedded key with the supplied one. -/
def toyDecrypt (k c : List Nat) : Option (List Nat) :=
  match c with
  | n :: t :: body =>
    if n = body.length ∧ t = body.sum then
      match decodeBody body with
      | some (k2, _, m) => if k2 = k then some m else none
      | none => none
    else none
  | _ => none

/-- Toy key derivation: length-framed pairing of password and salt, which is
injective. -/
def toyDerive (p s : List Nat) : List Nat := p.length :: (p ++ s)

/-- Toy text encoding: code points of the characters. -/
def toyStrEncode (s : String) : List Nat := s.data.map Char.toNat

/-- Toy text decoding: rebuild the characters from code points. -/
def toyStrDecode (l : List Nat) : Option String := some (String.mk (l.map Char.ofNat))

/-- Concrete executable instance of the library interface. -/
def toyFernet : Fernet :=
  ⟨toyEncrypt, toyDecrypt, toyDerive, toyStrEncode, toyStrDecode⟩

/-- File-system side effects performed by the storage layer, recorded as a
trace so that atomicity claims can be stated. -/
inductive FsOp where
  | write (path : String) (data : List Nat)
  | rename (src dst : String)
deriving DecidableEq

/-- Decrypted note as returned by FileManager.load_note: the dict with title
and content keys. -/
structure Note where
  title : String
  content : String
deriving DecidableEq

/-- Vault directory contents: filenames (as full paths) with their raw
bytes.  Later entries are shadowed by earlier ones, so prepending models an
overwrite. -/
structure FsState where
  files : List (String × List Nat)
deriving DecidableEq

/-- Model of the FileManager object (src/src/file_manager.py lines 4-22): the
vault path and the master key loaded from master.key (the key-file I/O of
__init__ is kept abstract as the key field; self.cipher = Fernet(self.key)). -/
structure FileManager where
  vault_path : String
  key : List Nat

/-- Lookup of a file's bytes in the vault state. -/
def lookupFile (st : FsState) (p : String) : Option (List Nat) :=
  (st.files.find? (fun kv => kv.1 == p)).map (fun kv => kv.2)

/-- Model of os.path.join for a relative second component. -/
def pathJoin (a b : String) : String := a ++ "/" ++ b

/-- Filename produced by FileManager.save_note (src/src/file_manager.py line
27): title.replace(" ", "_") + ".ghost". -/
def saveFilename (title : String) : String :=
  String.mk (listReplace [' '] ['_'] title.data) ++ ".ghost"

/-- Model of FileManager.save_note (src/src/file_manager.py lines 24-36):
encrypt the content with the master-key cipher (nonce explicit, standing for
the fresh IV inside Fernet.encrypt) and write the bytes to the note file with
a single direct open/write; returns the filename, the new vault state and the
trace of file-system operations performed. -/
def FileManager.save_note (F : Fernet) (fm : FileManager) (st : FsState)
    (nonce : List Nat) (title content : String) : String × FsState × List FsOp :=
  let filename := saveFilename title
  let file_path := pathJoin fm.vault_path filename
  let encrypted_data := F.fencrypt fm.key nonce (F.strEncode content)
  (filename, ⟨(file_path, encrypted_data) :: st.files⟩, [FsOp.write file_path encrypted_data])

/-- Filename normalisation at the top of FileManager.load_note
(src/src/file_manager.py lines 40-41): append ".ghost" unless already
present. -/
def normalizeName (filename : String) : String :=
  if ".ghost".data.isSuffixOf filename.data then filename else filename ++ ".ghost"

/-- Title reconstruction of FileManager.load_note (src/src/file_manager.py
line 55): filename.replace(".ghost", "").replace("_", " "). -/
def loadTitle (filename : String) : String :=
  String.mk (listReplace ['_'] [' '] (listReplace ".ghost".data [] filename.data))

/-- Model of FileManager.load_note (src/src/file_manager.py lines 38-59):
normalise the name, return None when the file does not exist, otherwise
decrypt; the try/except around decrypt-and-decode maps every decryption or
decoding failure to the sentinel Error note. -/
def FileManager.load_note (F : Fernet) (fm : FileManager) (st : FsState)
    (filename0 : String) : Option Note :=
  let filename := normalizeName filename0
  let file_path := pathJoin fm.vault_path filename
  match lookupFile st file_path with
  | none => none
  | some encrypted_data =>
    match F.fdecrypt fm.key encrypted_data with
    | none => some ⟨"Error", "Could not decrypt file."⟩
    | some bs =>
      match F.strDecode bs with
      | some s => some ⟨loadTitle filename, s⟩
      | none => some ⟨"Error", "Could not decrypt file."⟩

/-- Atomic write discipline as worded by the spec for save: write the bytes
to a temporary location and rename into place, so the final path only ever
appears as the rename destination. -/
def AtomicSaveTrace (tr : List FsOp) (finalPath : String) : Prop :=
  ∃ tmp data, tmp ≠ finalPath ∧ tr = [FsOp.write tmp data, FsOp.rename tmp finalPath]

/-- Model of the git working copy owned by SyncManager: remotes, current
branch name and its upstream link, the commit history (most recent first,
each commit a message and a tree snapshot), the working tree, the staging
index, and the user identity configuration. -/
structure GitRepo where
  remotes : List (String × String)
  branch : String
  hasUpstream : Bool
  commits : List (String × List (String × List Nat))
  workingTree : List (String × List Nat)
  index : List (String × List Nat)
  cfgEmail : Option String
  cfgName : Option String
deriving DecidableEq

/-- Environment of a sync call: the OS keyring contents (service "GhostWiki"),
the outcomes of the network-facing git operations (merge/push acceptance and
their error text, abstract since the remote is external), and the current
timestamp text used by the default commit message. -/
structure SyncEnv where
  credStore : List (String × String)
  pullOk : Bool
  pushOk : Bool
  pullErr : String
  pushErr : String
  now : String
  merge : GitRepo → GitRepo

/-- Model of SyncManager.has_remote (src/src/sync_manager.py lines 57-58). -/
def hasRemote (r : GitRepo) : Bool := r.remotes.any (fun p => p.1 == "origin")

/-- URL of the origin remote (guarded by has_remote at every use site). -/
def originUrl (r : GitRepo) : String :=
  ((r.remotes.find? (fun p => p.1 == "origin")).map (fun p => p.2)).getD ""

/-- Model of origin.set_url. -/
def setOriginUrl (r : GitRepo) (url : String) : GitRepo :=
  { r with remotes := r.remotes.map (fun p => if p.1 == "origin" then (p.1, url) else p) }

/-- Model of SyncManager._ensure_main_branch (src/src/sync_manager.py lines
81-87): rename a local "master" branch to "main". -/
def ensureMain (r : GitRepo) : GitRepo :=
  if r.branch == "master" then { r with branch := "main" } else r

/-- Tree snapshot of HEAD; the empty tree for a repository with no commits. -/
def headTree (r : GitRepo) : List (String × List Nat) :=
  match r.commits with
  | [] => []
  | c :: _ => c.2

/-- Model of repo.git.add(A=True): stage the whole working tree. -/
def gitAddAll (r : GitRepo) : GitRepo := { r with index := r.workingTree }

/-- Model of repo.untracked_files: working-tree files absent from the index. -/
def untrackedFiles (r : GitRepo) : List String :=
  (r.workingTree.filter (fun kv => ! r.index.any (fun kv2 => kv2.1 == kv.1))).map (fun kv => kv.1)

/-- Model of repo.is_dirty(index=True, untracked_files=False): staged changes
against HEAD, or working-tree changes against the index (working_tree=True is
the GitPython default and is not overridden at the call site). -/
def isDirty (r : GitRepo) : Bool :=
  decide (r.index ≠ headTree r) || decide (r.workingTree ≠ r.index)

/-- Model of the config_writer block of push (src/src/sync_manager.py lines
132-136): fill user.email / user.name only when missing, equivalently keep a
configured value and default a missing one. -/
def setGitIdentity (r : GitRepo) : GitRepo :=
  { r with cfgEmail := some (r.cfgEmail.getD "ghostwiki@local"),
           cfgName := some (r.cfgName.getD "GhostWiki") }

/-- Model of repo.index.commit(msg): record the staged tree as a new commit. -/
def doCommit (r : GitRepo) (msg : String) : GitRepo :=
  { r with commits := (msg, r.index) :: r.commits }

/-- Keyring lookup under the fixed GhostWiki service namespace. -/
def lookupCred (env : SyncEnv) (k : String) : Option String :=
  (env.credStore.find? (fun p => p.1 == k)).map (fun p => p.2)

/-- Model of SyncManager.get_pat (src/src/sync_manager.py lines 41-44):
keyring value or the empty string (the in-memory cache is behaviourally
transparent because the empty string is never cached). -/
def get_pat (env : SyncEnv) : String := (lookupCred env "github_pat").getD ""

/-- Model of SyncManager.get_github_user (src/src/sync_manager.py lines
46-47). -/
def get_github_user (env : SyncEnv) : String := (lookupCred env "github_user").getD ""

/-- Everything after the first occurrence of a given character; models
remote.split("@", 1)[-1]. -/
def afterAt : List Char → List Char
  | [] => []
  | c :: cs => if c = '@' then cs else afterAt cs

/-- Model of SyncManager._auth_url (src/src/sync_manager.py lines 71-77):
strip previously embedded credentials, then embed user:pat after the scheme
by replacing the "https://" occurrence. -/
def auth_url (env : SyncEnv) (r : GitRepo) : String :=
  let pat := get_pat env
  let user := get_github_user env
  let remote := originUrl r
  let remote2 :=
    if remote.data.any (fun c => c == '@') then "https://".data ++ afterAt remote.data
    else remote.data
  String.mk (listReplace "https://".data ("https://" ++ user ++ ":" ++ pat ++ "@").data remote2)

/-- Model of SyncManager.pull (src/src/sync_manager.py lines 97-109): fail
fast when no remote is configured; otherwise rewrite origin's URL with
embedded credentials and merge the remote main branch (allowing unrelated
histories), surfacing a merge failure verbatim. The merge's effect on the
working copy is the abstract env.merge. -/
def SyncManager.pull (env : SyncEnv) (r0 : GitRepo) : (Bool × String) × GitRepo :=
  if hasRemote r0 then
    let r1 := setOriginUrl r0 (auth_url env r0)
    if env.pullOk then ((true, "Pulled latest changes from GitHub."), env.merge r1)
    else ((false, "Pull failed: " ++ env.pullErr), r1)
  else ((false, "No remote configured. Add your repo URL in Sync Setup."), r0)

/-- Model of SyncManager.push (src/src/sync_manager.py lines 111-156):
fail fast without a remote; normalise the branch name; stage everything; if
nothing is staged and nothing untracked, report success without committing;
otherwise fill in missing identity, commit with the given or a default
timestamped message, rewrite origin's URL with credentials, and push —
normally when an upstream exists, else force-push setting the upstream. -/
def SyncManager.push (env : SyncEnv) (r0 : GitRepo) (commitMessage : Option String) :
    (Bool × String) × GitRepo :=
  if hasRemote r0 then
    let r1 := gitAddAll (ensureMain r0)
    if isDirty r1 = false ∧ untrackedFiles r1 = [] then
      ((true, "Nothing to commit — vault is already up to date."), r1)
    else
      let msg := match commitMessage with
        | none => "GhostWiki sync — " ++ env.now
        | some m => if m = "" then "GhostWiki sync — " ++ env.now else m
      let r2 := doCommit (setGitIdentity r1) msg
      let r3 := setOriginUrl r2 (auth_url env r2)
      if r3.hasUpstream then
        if env.pushOk then ((true, "Pushed to GitHub: '" ++ msg ++ "'"), r3)
        else ((false, "Push failed: " ++ env.pushErr), r3)
      else
        if env.pushOk then ((true, "Pushed to GitHub: '" ++ msg ++ "'"), { r3 with hasUpstream := true })
        else ((false, "Push failed: " ++ env.pushErr), r3)
  else ((false, "No remote configured. Add your repo URL in Sync Setup."), r0)

/-! Helper lemmas about the executable string functions. -/

theorem replAux_fuel (pat rep : List Char) : ∀ f1 f2 l, l.length ≤ f1 → l.length ≤ f2 →
    replAux pat rep f1 l = replAux pat rep f2 l := by
  intro f1
  induction f1 with
  | zero =>
    intro f2 l h1 _
    have hl : l = [] := List.eq_nil_of_length_eq_zero (Nat.le_zero.mp h1)
    subst hl
    cases f2 <;> rfl
  | succ f ih =>
    intro f2 l h1 h2
    cases l with
    | nil => cases f2 <;> rfl
    | cons c cs =>
      cases f2 with
      | zero => simp at h2
      | succ f2' =>
        simp only [replAux]
        by_cases hp : pat.isPrefixOf (c :: cs)
        · simp only [hp, if_true]
          have hlen : (cs.drop (pat.length - 1)).length ≤ f := by
            have := List.length_drop (pat.length - 1) cs
            simp only [List.length_cons] at h1
            omega
          have hlen2 : (cs.drop (pat.length - 1)).length ≤ f2' := by
            have := List.length_drop (pat.length - 1) cs
            simp only [List.length_cons] at h2
            omega
          rw [ih _ _ hlen hlen2]
        · simp only [hp, Bool.false_eq_true, if_false]
          simp only [List.length_cons] at h1 h2
          rw [ih f2' cs (by omega) (by omega)]

theorem listReplace_nil (pat rep : List Char) : listReplace pat rep [] = [] := rfl

theorem listReplace_cons (pat rep : List Char) (c : Char) (cs : List Char) :
    listReplace pat rep (c :: cs) =
      if pat.isPrefixOf (c :: cs) then rep ++ listReplace pat rep (cs.drop (pat.length - 1))
      else c :: listReplace pat rep cs := by
  show replAux pat rep (c :: cs).length (c :: cs) = _
  simp only [List.length_cons, replAux]
  by_cases hp : pat.isPrefixOf (c :: cs)
  · simp only [hp, if_true]
    rw [replAux_fuel pat rep cs.length (cs.drop (pat.length - 1)).length]
    · rfl
    · have := List.length_drop (pat.length - 1) cs
      omega
    · exact Nat.le_refl _
  · simp only [hp, if_false]
    rfl

theorem splitAux_fuel (pat : List Char) : ∀ f1 f2 l, l.length ≤ f1 → l.length ≤ f2 →
    splitAux pat f1 l = splitAux pat f2 l := by
  intro f1
  induction f1 with
  | zero =>
    intro f2 l h1 _
    have hl : l = [] := List.eq_nil_of_length_eq_zero (Nat.le_zero.mp h1)
    subst hl
    cases f2 <;> rfl
  | succ f ih =>
    intro f2 l h1 h2
    cases l with
    | nil => cases f2 <;> rfl
    | cons c cs =>
      cases f2 with
      | zero => simp at h2
      | succ f2' =>
        simp only [splitAux]
        by_cases hp : pat.isPrefixOf (c :: cs)
        · simp only [hp, if_true]
          have hlen : (cs.drop (pat.length - 1)).length ≤ f := by
            have := List.length_drop (pat.length - 1) cs
            simp only [List.length_cons] at h1
            omega
          have hlen2 : (cs.drop (pat.length - 1)).length ≤ f2' := by
            have := List.length_drop (pat.length - 1) cs
            simp only [List.length_cons] at h2
            omega
          rw [ih _ _ hlen hlen2]
        · simp only [hp, Bool.false_eq_true, if_false]
          simp only [List.length_cons] at h1 h2
          rw [ih f2' cs (by omega) (by omega)]

theorem listSplit_nil (pat : List Char) : listSplit pat [] = [[]] := rfl

theorem listSplit_cons (pat : List Char) (c : Char) (cs : List Char) :
    listSplit pat (c :: cs) =
      if pat.isPrefixOf (c :: cs) then [] :: listSplit pat (cs.drop (pat.length - 1))
      else match listSplit pat cs with
        | g :: gs => (c :: g) :: gs
        | [] => [[c]] := by
  show splitAux pat (c :: cs).length (c :: cs) = _
  simp only [List.length_cons, splitAux]
  by_cases hp : pat.isPrefixOf (c :: cs)
  · simp only [hp, if_true]
    rw [splitAux_fuel pat cs.length (cs.drop (pat.length - 1)).length]
    · rfl
    · have := List.length_drop (pat.length - 1) cs
      omega
    · exact Nat.le_refl _
  · simp only [hp, if_false]
    rfl

theorem listSplit_ne_nil (pat l : List Char) : listSplit pat l ≠ [] := by
  cases l with
  | nil => simp [listSplit_nil]
  | cons c cs =>
    rw [listSplit_cons]
    by_cases hp : pat.isPrefixOf (c :: cs)
    · simp [hp]
    · simp only [hp, if_false]
      cases listSplit pat cs <;> simp

/-! Soundness of the concrete toy library instance. -/

theorem sum_set_ne : ∀ (l : List Nat) (i b : Nat) (h : i < l.length),
    b ≠ l.get ⟨i, h⟩ → (l.set i b).sum ≠ l.sum := by
  intro l
  induction l with
  | nil => intro i b h; simp at h
  | cons a tl ih =>
    intro i b h hne
    cases i with
    | zero =>
      simp only [List.get, List.set_cons_zero, List.sum_cons] at hne ⊢
      omega
    | succ j =>
      simp only [List.set_cons_succ, List.sum_cons]
      have hj : j < tl.length := by simpa using h
      have := ih j b hj (by simpa using hne)
      omega

theorem decodeBody_encodeBody (k r m : List Nat) :
    decodeBody (encodeBody k r m) = some (k, r, m) := by
  have h1 : splitAt? k.length (k ++ (r.length :: (r ++ (m.length :: m)))) =
      some (k, r.length :: (r ++ (m.length :: m))) := by
    unfold splitAt?
    rw [if_pos (by simp)]
    rw [List.take_left, List.drop_left]
  have h2 : splitAt? r.length (r ++ (m.length :: m)) = some (r, m.length :: m) := by
    unfold splitAt?
    rw [if_pos (by simp)]
    rw [List.take_left, List.drop_left]
  simp [encodeBody, decodeBody, h1, h2]

theorem toy_roundtrip (k nonce msg : List Nat) :
    toyDecrypt k (toyEncrypt k nonce msg) = some msg := by
  simp [toyEncrypt, toyDecrypt, decodeBody_encodeBody]

theorem toy_wrongKey (k k2 nonce msg : List Nat) (h : k2 ≠ k) :
    toyDecrypt k2 (toyEncrypt k nonce msg) = none := by
  simp [toyEncrypt, toyDecrypt, decodeBody_encodeBody]
  intro he
  exact absurd he.symm h

theorem toy_flip (k nonce msg : List Nat) (i b : Nat)
    (h : i < (toyEncrypt k nonce msg).length)
    (hb : b ≠ (toyEncrypt k nonce msg).get ⟨i, h⟩) :
    toyDecrypt k ((toyEncrypt k nonce msg).set i b) = none := by
  match i with
  | 0 =>
    simp only [toyEncrypt, List.get, List.set_cons_zero] at hb ⊢
    simp [toyDecrypt, fun hc : b = (encodeBody k nonce msg).length => hb hc]
  | 1 =>
    simp only [toyEncrypt, List.get, List.set_cons_succ, List.set_cons_zero] at hb ⊢
    simp only [toyDecrypt]
    rw [if_neg]
    intro hc
    exact hb hc.2
  | (j + 2) =>
    simp only [toyEncrypt, List.length_cons] at h hb ⊢
    have hj : j < (encodeBody k nonce msg).length := by omega
    simp only [List.get, List.set_cons_succ] at hb ⊢
    simp only [toyDecrypt]
    rw [if_neg]
    intro hc
    have hlen := hc.1
    have hsum := hc.2
    rw [List.length_set] at hlen
    exact sum_set_ne (encodeBody k nonce msg) j b hj (by simpa using hb) hsum.symm

theorem toy_trunc (k nonce msg : List Nat) (j : Nat)
    (h : j < (toyEncrypt k nonce msg).length) :
    toyDecrypt k ((toyEncrypt k nonce msg).take j) = none := by
  match j with
  | 0 => rfl
  | 1 => rfl
  | (j + 2) =>
    simp only [toyEncrypt, List.length_cons] at h ⊢
    have hj : j < (encodeBody k nonce msg).length := by omega
    simp only [List.take_succ_cons]
    simp only [toyDecrypt]
    rw [if_neg]
    intro hc
    have hlen := hc.1
    rw [List.length_take] at hlen
    omega

theorem toy_empty (k : List Nat) : toyDecrypt k [] = none := rfl

theorem toy_derive_inj (p p2 s s2 : List Nat) (h : toyDerive p s = toyDerive p2 s2) :
    p = p2 ∧ s = s2 := by
  unfold toyDerive at h
  injection h with h1 h2
  exact List.append_inj h2 h1

theorem toy_str (s : String) : toyStrDecode (toyStrEncode s) = some s := by
  have h : ∀ l : List Char, List.map Char.ofNat (List.map Char.toNat l) = l := by
    intro l
    induction l with
    | nil => rfl
    | cons c cs ih => simp [Char.ofNat_toNat, ih]
  show some (String.mk (List.map Char.ofNat (List.map Char.toNat s.data))) = some s
  rw [h]

theorem toyFernet_sound : toyFernet.Sound :=
  ⟨toy_roundtrip, toy_wrongKey, toy_flip, toy_trunc, toy_empty, toy_derive_inj, toy_str⟩

/-! Claims about GhostCrypto. -/

theorem decrypt_content_eq (F : Fernet) (g : GhostCrypto) (fb : List Nat) :
    GhostCrypto.decrypt_content F g fb =
      match F.fdecrypt (F.derive (F.strEncode g.password) (fb.take 16)) (fb.drop 16) with
      | none => DecryptResult.invalidToken
      | some bs =>
        match F.strDecode bs with
        | some s => DecryptResult.ok s
        | none => DecryptResult.unicodeError := rfl

theorem strEncode_inj (F : Fernet) (hF : F.Sound) (a b : String)
    (h : F.strEncode a = F.strEncode b) : a = b := by
  have ha := hF.strRoundtrip a
  rw [h, hF.strRoundtrip b] at ha
  exact (Option.some_inj.mp ha).symm

/-- C1: for every plaintext string and every password, decrypting the result
of encrypting the plaintext with the same password returns it unchanged
(GhostCrypto.decrypt_content after GhostCrypto.encrypt_content, for any
16-byte salt and any nonce). -/
theorem C1_encrypt_then_decrypt_roundtrip (F : Fernet) (hF : F.Sound)
    (g : GhostCrypto) (salt nonce : List Nat) (t : String)
    (hsalt : salt.length = 16) :
    GhostCrypto.decrypt_content F g (GhostCrypto.encrypt_content F g salt nonce t) =
      DecryptResult.ok t := by
  rw [decrypt_content_eq]
  unfold GhostCrypto.encrypt_content
  rw [← hsalt, List.take_left, List.drop_left, hF.roundtrip]
  simp [hF.strRoundtrip]

theorem C1_encrypt_then_decrypt_roundtrip_witness :
    (List.replicate 16 (0 : Nat)).length = 16 ∧
    GhostCrypto.decrypt_content toyFernet ⟨"pw"⟩
      (GhostCrypto.encrypt_content toyFernet ⟨"pw"⟩ (List.replicate 16 0) [3] "hi") =
      DecryptResult.ok "hi" :=
  ⟨by decide,
   C1_encrypt_then_decrypt_roundtrip toyFernet toyFernet_sound ⟨"pw"⟩
     (List.replicate 16 0) [3] "hi" (by decide)⟩

/-- Helper: decrypt_content of a 16-byte salt followed by payload bytes that
Fernet rejects yields the typed InvalidToken failure. -/
theorem decrypt_append_none (F : Fernet) (g : GhostCrypto) (salt data : List Nat)
    (hsalt : salt.length = 16)
    (hnone : F.fdecrypt (F.derive (F.strEncode g.password) salt) data = none) :
    GhostCrypto.decrypt_content F g (salt ++ data) = DecryptResult.invalidToken := by
  rw [decrypt_content_eq, ← hsalt, List.take_left, List.drop_left, hnone]

/-- C2: for every ciphertext produced by encrypt_content, flipping any single
byte (including inside the 16-byte salt prefix), truncating the ciphertext,
or decrypting with a different password makes decrypt_content fail with the
typed InvalidToken failure (the spec's DecryptionFailure) — never with the
unqualified UnicodeDecodeError and never with a wrong plaintext. -/
theorem C2_tamper_fails_typed (F : Fernet) (hF : F.Sound)
    (g : GhostCrypto) (salt nonce : List Nat) (t : String)
    (hsalt : salt.length = 16) :
    (∀ i b, ∀ hi : i < (GhostCrypto.encrypt_content F g salt nonce t).length,
        b ≠ (GhostCrypto.encrypt_content F g salt nonce t).get ⟨i, hi⟩ →
        GhostCrypto.decrypt_content F g
          ((GhostCrypto.encrypt_content F g salt nonce t).set i b) =
          DecryptResult.invalidToken) ∧
    (∀ j, j < (GhostCrypto.encrypt_content F g salt nonce t).length →
        GhostCrypto.decrypt_content F g
          ((GhostCrypto.encrypt_content F g salt nonce t).take j) =
          DecryptResult.invalidToken) ∧
    (∀ g2 : GhostCrypto, g2.password ≠ g.password →
        GhostCrypto.decrypt_content F g2 (GhostCrypto.encrypt_content F g salt nonce t) =
          DecryptResult.invalidToken) := by
  set pwb := F.strEncode g.password with hpwb
  set key := F.derive pwb salt with hkey
  set tok := F.fencrypt key nonce (F.strEncode t) with htok
  have hc : GhostCrypto.encrypt_content F g salt nonce t = salt ++ tok := rfl
  have hclen : (salt ++ tok).length = 16 + tok.length := by
    rw [List.length_append, hsalt]
  refine ⟨?_, ?_, ?_⟩
  · -- single-byte flip
    intro i b hi hb
    have hi2 : i < (salt ++ tok).length := hi
    have hb2 : b ≠ (salt ++ tok).get ⟨i, hi2⟩ := hb
    show GhostCrypto.decrypt_content F g ((salt ++ tok).set i b) = DecryptResult.invalidToken
    by_cases h16 : i < 16
    · -- flip inside the salt: the derived key changes, Fernet rejects
      have hset : (salt ++ tok).set i b = salt.set i b ++ tok := by
        rw [List.set_append, if_pos (by omega)]
      have hlenset : (salt.set i b).length = 16 := by rw [List.length_set, hsalt]
      have hisalt : i < salt.length := by omega
      have hget : (salt ++ tok).get ⟨i, hi2⟩ = salt.get ⟨i, hisalt⟩ := by
        rw [List.get_eq_getElem, List.get_eq_getElem, List.getElem_append, dif_pos hisalt]
      have hsne : salt.set i b ≠ salt := by
        intro he
        apply hb2
        rw [hget, List.get_eq_getElem]
        have hgs := List.getElem_of_eq he (show i < (salt.set i b).length by
          rw [List.length_set]; omega)
        rw [List.getElem_set_self] at hgs
        exact hgs
      have hkne : F.derive pwb (salt.set i b) ≠ key := by
        intro he
        exact hsne (hF.deriveInj _ _ _ _ he).2
      rw [hset]
      exact decrypt_append_none F g (salt.set i b) tok hlenset
        (hF.wrongKey key _ nonce _ hkne)
    · -- flip inside the token: the authentication check rejects
      have hset : (salt ++ tok).set i b = salt ++ tok.set (i - 16) b := by
        rw [List.set_append, if_neg (by omega), hsalt]
      have hitok : i - 16 < tok.length := by rw [hclen] at hi2; omega
      have hg2 : (salt ++ tok)[i] = tok[i - 16] := by
        rw [List.getElem_append_right (by omega)]
        simp [hsalt]
      have hget : (salt ++ tok).get ⟨i, hi2⟩ = tok.get ⟨i - 16, hitok⟩ := by
        rw [List.get_eq_getElem, List.get_eq_getElem]
        exact hg2
      rw [hset]
      refine decrypt_append_none F g salt _ hsalt ?_
      refine hF.flipTamper key nonce _ (i - 16) b hitok ?_
      rw [hget] at hb2
      exact hb2
  · -- truncation
    intro j hj
    have hj2 : j < (salt ++ tok).length := hj
    show GhostCrypto.decrypt_content F g ((salt ++ tok).take j) = DecryptResult.invalidToken
    by_cases h16 : j < 16
    · have htk : (salt ++ tok).take j = salt.take j := by
        rw [List.take_append_eq_append_take, hsalt,
          Nat.sub_eq_zero_of_le (by omega), List.take_zero, List.append_nil]
      have hlen : (salt.take j).length ≤ 16 := by
        rw [List.length_take]; omega
      rw [decrypt_content_eq, htk, List.take_of_length_le hlen,
        List.drop_eq_nil_of_le hlen, hF.emptyInvalid]
    · have htk : (salt ++ tok).take j = salt ++ tok.take (j - 16) := by
        rw [List.take_append_eq_append_take, hsalt]
        congr 1
        exact List.take_of_length_le (by omega)
      have hjtok : j - 16 < tok.length := by rw [hclen] at hj2; omega
      rw [htk]
      exact decrypt_append_none F g salt _ hsalt (hF.truncTamper key nonce _ (j - 16) hjtok)
  · -- wrong password
    intro g2 hpw
    have hkne : F.derive (F.strEncode g2.password) salt ≠ key := by
      intro he
      exact hpw (strEncode_inj F hF _ _ (hF.deriveInj _ _ _ _ he).1)
    show GhostCrypto.decrypt_content F g2 (salt ++ tok) = DecryptResult.invalidToken
    exact decrypt_append_none F g2 salt tok hsalt (hF.wrongKey key _ nonce _ hkne)

theorem C2_tamper_fails_typed_witness :
    (List.replicate 16 (0 : Nat)).length = 16 ∧
    GhostCrypto.decrypt_content toyFernet ⟨"a"⟩
      ((GhostCrypto.encrypt_content toyFernet ⟨"a"⟩ (List.replicate 16 0) [1] "hi").set 0 5) =
      DecryptResult.invalidToken ∧
    GhostCrypto.decrypt_content toyFernet ⟨"a"⟩
      ((GhostCrypto.encrypt_content toyFernet ⟨"a"⟩ (List.replicate 16 0) [1] "hi").take 3) =
      DecryptResult.invalidToken ∧
    GhostCrypto.decrypt_content toyFernet ⟨"b"⟩
      (GhostCrypto.encrypt_content toyFernet ⟨"a"⟩ (List.replicate 16 0) [1] "hi") =
      DecryptResult.invalidToken := by
  refine ⟨by decide, ?_, ?_, ?_⟩
  · exact (C2_tamper_fails_typed toyFernet toyFernet_sound ⟨"a"⟩
      (List.replicate 16 0) [1] "hi" (by decide)).1 0 5 (by decide) (by decide)
  · exact (C2_tamper_fails_typed toyFernet toyFernet_sound ⟨"a"⟩
      (List.replicate 16 0) [1] "hi" (by decide)).2.1 3 (by decide)
  · exact (C2_tamper_fails_typed toyFernet toyFernet_sound ⟨"a"⟩
      (List.replicate 16 0) [1] "hi" (by decide)).2.2 ⟨"b"⟩ (by decide)

/-! Claims about FileManager. -/

theorem repl_single_not_mem (c : Char) (rep l : List Char) (h : c ∉ l) :
    listReplace [c] rep l = l := by
  induction l with
  | nil => rfl
  | cons d ds ih =>
    rw [listReplace_cons]
    have hcd : ¬ c = d := fun he => h (by simp [he])
    have hp : ([c].isPrefixOf (d :: ds)) = false := by
      simp [List.isPrefixOf]
      exact hcd
    simp only [hp, Bool.false_eq_true, if_false]
    rw [ih (fun hm => h (by simp [hm]))]

theorem lookupFile_cons_self (p : String) (d : List Nat) (rest : List (String × List Nat)) :
    lookupFile ⟨(p, d) :: rest⟩ p = some d := by
  simp [lookupFile]

/-- C3 counterexample: saving under the title "a b" stores the file under the
space-mangled name "a_b.ghost", so an immediate load of the same path "a b"
finds no file at all and returns none — not a note carrying the saved
content. -/
theorem C3_counterexample :
    FileManager.load_note toyFernet ⟨"vault", [7]⟩
      (FileManager.save_note toyFernet ⟨"vault", [7]⟩ ⟨[]⟩ [1] "a b" "hello").2.1
      "a b" = none := by decide

/-- C3 (amended): for every title that contains no space and does not end in
".ghost", saving and then immediately loading that same title returns a note
whose content is the saved content unchanged. -/
theorem C3_save_then_load_same_path (F : Fernet) (hF : F.Sound) (fm : FileManager)
    (st : FsState) (nonce : List Nat) (title content : String)
    (hsp : ' ' ∉ title.data)
    (hgh : ¬ ".ghost".data.isSuffixOf title.data = true) :
    (FileManager.load_note F fm
        (FileManager.save_note F fm st nonce title content).2.1 title).map Note.content =
      some content := by
  have hfn : saveFilename title = title ++ ".ghost" := by
    unfold saveFilename
    rw [repl_single_not_mem ' ' ['_'] title.data hsp]
  have hnorm : normalizeName title = title ++ ".ghost" := by
    unfold normalizeName
    rw [if_neg hgh]
  simp only [FileManager.save_note, FileManager.load_note]
  rw [hnorm, hfn, lookupFile_cons_self]
  simp [hF.roundtrip, hF.strRoundtrip]

theorem C3_save_then_load_same_path_witness :
    (' ' ∉ "hello".data) ∧ (¬ ".ghost".data.isSuffixOf "hello".data = true) ∧
    (FileManager.load_note toyFernet ⟨"vault", [7]⟩
        (FileManager.save_note toyFernet ⟨"vault", [7]⟩ ⟨[]⟩ [1] "hello" "world").2.1
        "hello").map Note.content = some "world" :=
  ⟨by decide, by decide,
   C3_save_then_load_same_path toyFernet toyFernet_sound ⟨"vault", [7]⟩ ⟨[]⟩ [1]
     "hello" "world" (by decide) (by decide)⟩

/-- C5 counterexample: at a concrete input, the trace of save_note is a single
direct write to the final note path — it is not of the write-temporary-then-
rename shape the claim asserts. -/
theorem C5_counterexample :
    (FileManager.save_note toyFernet ⟨"vault", [7]⟩ ⟨[]⟩ [1] "Notes" "hello").2.2 =
      [FsOp.write (pathJoin "vault" "Notes.ghost")
        (toyFernet.fencrypt [7] [1] (toyFernet.strEncode "hello"))] ∧
    ¬ AtomicSaveTrace
        (FileManager.save_note toyFernet ⟨"vault", [7]⟩ ⟨[]⟩ [1] "Notes" "hello").2.2
        (pathJoin "vault" "Notes.ghost") := by
  constructor
  · rfl
  · rintro ⟨tmp, d, hne, heq⟩
    have hl := congrArg List.length heq
    simp [FileManager.save_note] at hl

/-- C5 (amended): every call to save_note writes the encrypted bytes with one
direct write to the final note path — no temporary file and no rename — and
returns the encoded filename. -/
theorem C5_save_writes_directly (F : Fernet) (fm : FileManager) (st : FsState)
    (nonce : List Nat) (title content : String) :
    FileManager.save_note F fm st nonce title content =
      (saveFilename title,
       ⟨(pathJoin fm.vault_path (saveFilename title),
          F.fencrypt fm.key nonce (F.strEncode content)) :: st.files⟩,
       [FsOp.write (pathJoin fm.vault_path (saveFilename title))
          (F.fencrypt fm.key nonce (F.strEncode content))]) ∧
    ¬ AtomicSaveTrace (FileManager.save_note F fm st nonce title content).2.2
        (pathJoin fm.vault_path (saveFilename title)) := by
  constructor
  · rfl
  · rintro ⟨tmp, d, hne, heq⟩
    have hl := congrArg List.length heq
    simp [FileManager.save_note] at hl

/-- C6: whenever the stored bytes of a note fail to decrypt, load_note
returns the displayable sentinel note explaining the corruption instead of
propagating the failure. -/
theorem C6_corrupt_note_is_isolated (F : Fernet) (fm : FileManager) (st : FsState)
    (filename : String) (data : List Nat)
    (hfile : lookupFile st (pathJoin fm.vault_path (normalizeName filename)) = some data)
    (hbad : F.fdecrypt fm.key data = none) :
    FileManager.load_note F fm st filename = some ⟨"Error", "Could not decrypt file."⟩ := by
  simp only [FileManager.load_note]
  rw [hfile]
  simp [hbad]

theorem C6_corrupt_note_is_isolated_witness :
    lookupFile ⟨[("v/x.ghost", [])]⟩ (pathJoin "v" (normalizeName "x.ghost")) = some [] ∧
    toyFernet.fdecrypt [0] [] = none ∧
    FileManager.load_note toyFernet ⟨"v", [0]⟩ ⟨[("v/x.ghost", [])]⟩ "x.ghost" =
      some ⟨"Error", "Could not decrypt file."⟩ :=
  ⟨by decide, rfl,
   C6_corrupt_note_is_isolated toyFernet ⟨"v", [0]⟩ ⟨[("v/x.ghost", [])]⟩ "x.ghost" []
     (by decide) rfl⟩

/-- C9: when the (normalised) note file does not exist in the vault state,
load_note returns none — neither a note nor the corruption sentinel. -/
theorem C9_missing_file_returns_none (F : Fernet) (fm : FileManager) (st : FsState)
    (filename : String)
    (hmiss : lookupFile st (pathJoin fm.vault_path (normalizeName filename)) = none) :
    FileManager.load_note F fm st filename = none := by
  simp only [FileManager.load_note]
  rw [hmiss]

theorem C9_missing_file_returns_none_witness :
    lookupFile ⟨[]⟩ (pathJoin "vault" (normalizeName "nope")) = none ∧
    FileManager.load_note toyFernet ⟨"vault", [7]⟩ ⟨[]⟩ "nope" = none :=
  ⟨rfl, C9_missing_file_returns_none toyFernet ⟨"vault", [7]⟩ ⟨[]⟩ "nope" rfl⟩

/-! Claims about SyncManager. -/

theorem ensureMain_remotes (r : GitRepo) : (ensureMain r).remotes = r.remotes := by
  unfold ensureMain; split <;> rfl

theorem ensureMain_commits (r : GitRepo) : (ensureMain r).commits = r.commits := by
  unfold ensureMain; split <;> rfl

theorem ensureMain_workingTree (r : GitRepo) : (ensureMain r).workingTree = r.workingTree := by
  unfold ensureMain; split <;> rfl

theorem hasRemote_ensureMain (r : GitRepo) : hasRemote (ensureMain r) = hasRemote r := by
  unfold hasRemote; rw [ensureMain_remotes]

theorem hasRemote_setOriginUrl (r : GitRepo) (u : String) :
    hasRemote (setOriginUrl r u) = hasRemote r := by
  simp only [hasRemote, setOriginUrl, List.any_map]
  congr 1
  funext q
  simp only [Function.comp_apply]
  split <;> rfl

theorem untracked_addAll (r : GitRepo) : untrackedFiles (gitAddAll r) = [] := by
  unfold untrackedFiles gitAddAll
  simp only []
  have hfil : (r.workingTree.filter fun kv => ! r.workingTree.any fun kv2 => kv2.1 == kv.1) = [] := by
    rw [List.filter_eq_nil_iff]
    intro kv hkv
    simp only [Bool.not_eq_true', Bool.not_eq_false]
    rw [List.any_eq_true]
    exact ⟨kv, hkv, by simp⟩
  rw [hfil]
  rfl

theorem hasRemote_r3 (r0 : GitRepo) (msg u : String) (h : hasRemote r0 = true) :
    hasRemote (setOriginUrl (doCommit (setGitIdentity (gitAddAll (ensureMain r0))) msg) u) = true := by
  rw [hasRemote_setOriginUrl]
  show hasRemote (ensureMain r0) = true
  rw [hasRemote_ensureMain]
  exact h

theorem headTree_r3 (r0 : GitRepo) (msg u : String) :
    headTree (setOriginUrl (doCommit (setGitIdentity (gitAddAll (ensureMain r0))) msg) u) =
      (setOriginUrl (doCommit (setGitIdentity (gitAddAll (ensureMain r0))) msg) u).workingTree := rfl

theorem hasRemote_r3b (r0 : GitRepo) (msg u : String) (h : hasRemote r0 = true) :
    hasRemote
      { setOriginUrl (doCommit (setGitIdentity (gitAddAll (ensureMain r0))) msg) u with
        hasUpstream := true } = true :=
  hasRemote_r3 r0 msg u h

theorem headTree_r3b (r0 : GitRepo) (msg u : String) :
    headTree
      { setOriginUrl (doCommit (setGitIdentity (gitAddAll (ensureMain r0))) msg) u with
        hasUpstream := true } =
      ({ setOriginUrl (doCommit (setGitIdentity (gitAddAll (ensureMain r0))) msg) u with
        hasUpstream := true } : GitRepo).workingTree := rfl

/-- Helper: after any push with a remote configured, the working copy still
has its remote, and HEAD's tree snapshot coincides with the working tree
(either nothing was staged, or everything staged was just committed). -/
theorem push_ready (env : SyncEnv) (r0 : GitRepo) (m : Option String)
    (h : hasRemote r0 = true) :
    hasRemote (SyncManager.push env r0 m).2 = true ∧
    headTree (SyncManager.push env r0 m).2 = (SyncManager.push env r0 m).2.workingTree := by
  simp only [SyncManager.push]
  rw [if_pos h]
  by_cases hnothing : isDirty (gitAddAll (ensureMain r0)) = false ∧
      untrackedFiles (gitAddAll (ensureMain r0)) = []
  · rw [if_pos hnothing]
    refine ⟨?_, ?_⟩
    · show hasRemote (ensureMain r0) = true
      rw [hasRemote_ensureMain]; exact h
    · have h1 := hnothing.1
      simp only [isDirty, Bool.or_eq_false_iff, decide_eq_false_iff_not, not_not] at h1
      show headTree (gitAddAll (ensureMain r0)) = (gitAddAll (ensureMain r0)).workingTree
      rw [h1.2, h1.1]
  · rw [if_neg hnothing]
    split
    · split
      · exact ⟨hasRemote_r3 r0 _ _ h, headTree_r3 r0 _ _⟩
      · exact ⟨hasRemote_r3 r0 _ _ h, headTree_r3 r0 _ _⟩
    · split
      · exact ⟨hasRemote_r3b r0 _ _ h, headTree_r3b r0 _ _⟩
      · exact ⟨hasRemote_r3 r0 _ _ h, headTree_r3 r0 _ _⟩

/-- Helper: pushing a working copy whose HEAD tree already equals the working
tree takes the nothing-to-commit branch. -/
theorem push_second_noop (env : SyncEnv) (r : GitRepo) (m : Option String)
    (hrem : hasRemote r = true) (hclean : headTree r = r.workingTree) :
    SyncManager.push env r m =
      ((true, "Nothing to commit — vault is already up to date."), gitAddAll (ensureMain r)) := by
  simp only [SyncManager.push]
  rw [if_pos hrem]
  have hclean2 : headTree (gitAddAll (ensureMain r)) = r.workingTree := by
    show headTree (ensureMain r) = r.workingTree
    unfold headTree
    rw [ensureMain_commits]
    exact hclean
  have h1 : isDirty (gitAddAll (ensureMain r)) = false := by
    simp only [isDirty, Bool.or_eq_false_iff, decide_eq_false_iff_not, not_not]
    constructor
    · show (ensureMain r).workingTree = headTree (gitAddAll (ensureMain r))
      rw [hclean2, ensureMain_workingTree]
    · show (gitAddAll (ensureMain r)).workingTree = (ensureMain r).workingTree
      rfl
  rw [if_pos ⟨h1, untracked_addAll (ensureMain r)⟩]

/-- C7: with a remote configured, calling push twice with no edits in between
makes the second call return success with the nothing-to-synchronize message,
and the second call leaves the commit history unchanged. -/
theorem C7_second_push_is_noop (env : SyncEnv) (r0 : GitRepo) (m1 m2 : Option String)
    (h : hasRemote r0 = true) :
    (SyncManager.push env (SyncManager.push env r0 m1).2 m2).1 =
      (true, "Nothing to commit — vault is already up to date.") ∧
    (SyncManager.push env (SyncManager.push env r0 m1).2 m2).2.commits =
      (SyncManager.push env r0 m1).2.commits := by
  have hready := push_ready env r0 m1 h
  have hsecond := push_second_noop env (SyncManager.push env r0 m1).2 m2 hready.1 hready.2
  rw [hsecond]
  refine ⟨rfl, ?_⟩
  show (ensureMain (SyncManager.push env r0 m1).2).commits = _
  rw [ensureMain_commits]

theorem C7_second_push_is_noop_witness :
    hasRemote ⟨[("origin", "https://github.com/u/r.git")], "main", false, [],
        [("a.ghost", [1])], [], none, none⟩ = true ∧
    (SyncManager.push ⟨[], true, true, "", "", "ts", id⟩
        (SyncManager.push ⟨[], true, true, "", "", "ts", id⟩
          ⟨[("origin", "https://github.com/u/r.git")], "main", false, [],
            [("a.ghost", [1])], [], none, none⟩ none).2 none).1 =
      (true, "Nothing to commit — vault is already up to date.") :=
  ⟨by decide,
   (C7_second_push_is_noop ⟨[], true, true, "", "", "ts", id⟩
      ⟨[("origin", "https://github.com/u/r.git")], "main", false, [],
        [("a.ghost", [1])], [], none, none⟩ none none (by decide)).1⟩

/-- C8: with no remote configured, both pull and push return the failure
result carrying the no-remote message (the RemoteNotConfigured outcome), and
neither touches the repository state. -/
theorem C8_no_remote_fails_cleanly (env : SyncEnv) (r : GitRepo) (m : Option String)
    (h : hasRemote r = false) :
    SyncManager.pull env r =
      ((false, "No remote configured. Add your repo URL in Sync Setup."), r) ∧
    SyncManager.push env r m =
      ((false, "No remote configured. Add your repo URL in Sync Setup."), r) := by
  constructor
  · simp only [SyncManager.pull]
    rw [if_neg (by rw [h]; simp)]
  · simp only [SyncManager.push]
    rw [if_neg (by rw [h]; simp)]

theorem C8_no_remote_fails_cleanly_witness :
    hasRemote ⟨[], "main", false, [], [], [], none, none⟩ = false ∧
    SyncManager.pull ⟨[], true, true, "", "", "", id⟩
        ⟨[], "main", false, [], [], [], none, none⟩ =
      ((false, "No remote configured. Add your repo URL in Sync Setup."),
        ⟨[], "main", false, [], [], [], none, none⟩) ∧
    SyncManager.push ⟨[], true, true, "", "", "", id⟩
        ⟨[], "main", false, [], [], [], none, none⟩ none =
      ((false, "No remote configured. Add your repo URL in Sync Setup."),
        ⟨[], "main", false, [], [], [], none, none⟩) :=
  ⟨rfl,
   (C8_no_remote_fails_cleanly ⟨[], true, true, "", "", "", id⟩
      ⟨[], "main", false, [], [], [], none, none⟩ none rfl).1,
   (C8_no_remote_fails_cleanly ⟨[], true, true, "", "", "", id⟩
      ⟨[], "main", false, [], [], [], none, none⟩ none rfl).2⟩

/-- C10: with no stored credentials the keyring lookups fall back to the
empty string, the authenticated URL embeds empty identity and secret
(https://:@host/...), and pull and push proceed with it to the network
operation rather than failing with any credential-missing error. -/
theorem C10_empty_credentials_still_proceed (pOk pshOk : Bool)
    (perr psherr now2 : String) (mg : GitRepo → GitRepo) :
    auth_url ⟨[], pOk, pshOk, perr, psherr, now2, mg⟩
        ⟨[("origin", "https://github.com/user/repo.git")], "main", false, [], [], [], none, none⟩ =
      "https://:@github.com/user/repo.git" ∧
    (SyncManager.pull ⟨[], pOk, pshOk, perr, psherr, now2, mg⟩
        ⟨[("origin", "https://github.com/user/repo.git")], "main", false, [], [], [], none, none⟩).1 =
      (if pOk then (true, "Pulled latest changes from GitHub.")
       else (false, "Pull failed: " ++ perr)) ∧
    (SyncManager.push ⟨[], pOk, pshOk, perr, psherr, now2, mg⟩
        ⟨[("origin", "https://github.com/user/repo.git")], "main", false, [],
          [("a.ghost", [1])], [], none, none⟩ none).1 =
      (if pshOk then (true, "Pushed to GitHub: '" ++ ("GhostWiki sync — " ++ now2) ++ "'")
       else (false, "Push failed: " ++ psherr)) ∧
    originUrl (SyncManager.push ⟨[], pOk, pshOk, perr, psherr, now2, mg⟩
        ⟨[("origin", "https://github.com/user/repo.git")], "main", false, [],
          [("a.ghost", [1])], [], none, none⟩ none).2 =
      "https://:@github.com/user/repo.git" := by
  refine ⟨rfl, ?_, ?_, ?_⟩
  · cases pOk <;> rfl
  · cases pshOk <;> rfl
  · cases pshOk <;> rfl

/-! Path-codec helper lemmas. -/

theorem singleton_isPrefixOf (c d : Char) (ds : List Char) :
    ([c].isPrefixOf (d :: ds)) = (c == d) := by
  simp [List.isPrefixOf]

theorem listReplace_single (c : Char) (rep l : List Char) :
    listReplace [c] rep l = charSubst c rep l := by
  induction l with
  | nil => rfl
  | cons d ds ih =>
    rw [listReplace_cons, singleton_isPrefixOf]
    by_cases hdc : c = d
    · subst hdc
      simp [charSubst, ih]
    · have hdc2 : ¬ d = c := fun he => hdc he.symm
      simp [charSubst, ih, hdc, hdc2]

theorem charSubst_append (c : Char) (rep a b : List Char) :
    charSubst c rep (a ++ b) = charSubst c rep a ++ charSubst c rep b := by
  induction a with
  | nil => rfl
  | cons d ds ih => simp [charSubst, ih]

theorem charSubst_not_mem (c : Char) (rep l : List Char) (h : c ∉ l) :
    charSubst c rep l = l := by
  induction l with
  | nil => rfl
  | cons d ds ih =>
    have hdc : ¬ d = c := fun he => h (by rw [he]; exact List.mem_cons_self c ds)
    simp [charSubst, hdc, ih (fun hm => h (List.mem_cons_of_mem d hm))]

theorem charSubst_singleton_self (c : Char) (rep : List Char) :
    charSubst c rep [c] = rep := by
  simp [charSubst]

theorem charSubst_eq_map (c e : Char) (l : List Char) :
    charSubst c [e] l = l.map (fun d => if d = c then e else d) := by
  induction l with
  | nil => rfl
  | cons d ds ih =>
    by_cases hdc : d = c <;> simp [charSubst, ih, hdc]

theorem joinSep_single (sep p : List Char) : joinSep sep [p] = p := rfl

theorem joinSep_cons2 (sep p q : List Char) (qs : List (List Char)) :
    joinSep sep (p :: q :: qs) = p ++ sep ++ joinSep sep (q :: qs) := rfl

theorem charSubst_joinSep (c : Char) (rep : List Char) (parts : List (List Char))
    (h : ∀ p ∈ parts, c ∉ p) :
    charSubst c rep (joinSep [c] parts) = joinSep rep parts := by
  induction parts with
  | nil => rfl
  | cons p ps ih =>
    cases ps with
    | nil =>
      show charSubst c rep p = p
      exact charSubst_not_mem c rep p (h p (List.mem_cons_self p []))
    | cons q qs =>
      rw [joinSep_cons2, joinSep_cons2]
      rw [charSubst_append, charSubst_append]
      rw [charSubst_not_mem c rep p (h p (List.mem_cons_self _ _)), charSubst_singleton_self]
      rw [ih (fun r hr => h r (List.mem_cons_of_mem p hr))]

theorem map_joinSep (f : Char → Char) (sep : List Char) (parts : List (List Char))
    (hsep : sep.map f = sep) :
    (joinSep sep parts).map f = joinSep sep (parts.map (List.map f)) := by
  induction parts with
  | nil => rfl
  | cons p ps ih =>
    cases ps with
    | nil => rfl
    | cons q qs =>
      simp only [List.map_cons]
      rw [joinSep_cons2, joinSep_cons2, List.map_append, List.map_append, hsep, ih]
      simp only [List.map_cons]

theorem prefix_of_append_of_le {l a b : List Char} (h : l <+: a ++ b)
    (hl : l.length ≤ a.length) : l <+: a := by
  obtain ⟨t, ht⟩ := h
  have htake := congrArg (List.take l.length) ht
  rw [List.take_append_eq_append_take, List.take_length, Nat.sub_self, List.take_zero,
    List.append_nil] at htake
  rw [List.take_append_eq_append_take, Nat.sub_eq_zero_of_le hl, List.take_zero,
    List.append_nil] at htake
  refine ⟨a.drop l.length, ?_⟩
  nth_rewrite 1 [htake]
  exact List.take_append_drop _ _

theorem ghost_no_period : ∀ L, L < 6 → 0 < L →
    ".ghost".data.drop L ≠ ".ghost".data.take (6 - L) := by decide

theorem listReplace_ext (stem : List Char) (hno : ¬ (".ghost".data <:+: stem)) :
    listReplace ".ghost".data [] (stem ++ ".ghost".data) = stem := by
  induction stem with
  | nil => decide
  | cons a stem' ih =>
    rw [List.cons_append, listReplace_cons]
    by_cases hp : (".ghost".data.isPrefixOf (a :: (stem' ++ ".ghost".data))) = true
    · exfalso
      have hpre := List.isPrefixOf_iff_prefix.mp hp
      have hpre2 : ".ghost".data <+: (a :: stem') ++ ".ghost".data := by
        rw [List.cons_append]
        exact hpre
      by_cases hlen : 6 ≤ (a :: stem').length
      · exact hno (prefix_of_append_of_le hpre2 (by simpa using hlen)).isInfix
      · obtain ⟨t, ht⟩ := hpre2
        have hL1 : 1 ≤ (a :: stem').length := by simp
        have hL6 : (a :: stem').length < 6 := by omega
        have h6 : ".ghost".data.length = 6 := rfl
        have hdrop := congrArg (List.drop (a :: stem').length) ht
        rw [List.drop_append_eq_append_drop, List.drop_left,
          Nat.sub_eq_zero_of_le (by omega), List.drop_zero] at hdrop
        have hsplit := List.take_append_drop (6 - (a :: stem').length) ".ghost".data
        have hlenq : (".ghost".data.drop (a :: stem').length).length =
            (".ghost".data.take (6 - (a :: stem').length)).length := by
          rw [List.length_drop, List.length_take, h6]
          omega
        have hinj := List.append_inj (hdrop.trans hsplit.symm) hlenq
        exact ghost_no_period (a :: stem').length hL6 hL1 hinj.1
    · rw [if_neg hp]
      rw [ih (fun hi => hno (List.infix_cons hi))]

theorem listSplit_sep_step (p rest : List Char)
    (hp1 : ¬ (SEP <:+: p)) (hp2 : p.getLast? ≠ some '_') :
    listSplit SEP (p ++ SEP ++ rest) = p :: listSplit SEP rest := by
  induction p with
  | nil =>
    show listSplit SEP ('_' :: ('_' :: rest)) = [] :: listSplit SEP rest
    rw [listSplit_cons]
    have hcd : (SEP.isPrefixOf ('_' :: '_' :: rest)) = true := by
      simp [SEP, List.isPrefixOf]
    rw [if_pos hcd]
    show ([] : List Char) :: listSplit SEP (('_' :: rest).drop (SEP.length - 1)) =
      [] :: listSplit SEP rest
    norm_num [SEP]
  | cons a p' ih =>
    show listSplit SEP (a :: (p' ++ SEP ++ rest)) = (a :: p') :: listSplit SEP rest
    rw [listSplit_cons]
    have hcond : (SEP.isPrefixOf (a :: (p' ++ SEP ++ rest))) = false := by
      cases p' with
      | nil =>
        have ha : ¬ a = '_' := fun he => hp2 (by simp [he])
        have ha2 : ¬ ('_' : Char) = a := fun he => ha he.symm
        simp [SEP, List.isPrefixOf, ha2]
      | cons b p'' =>
        by_cases hab : a = '_'
        · have hb : ¬ b = '_' := by
            intro hbe
            exact hp1 ⟨[], p'', by simp [SEP, hab, hbe]⟩
          have hb2 : ¬ ('_' : Char) = b := fun he => hb he.symm
          simp [SEP, List.isPrefixOf, hb2]
        · have ha2 : ¬ ('_' : Char) = a := fun he => hab he.symm
          simp [SEP, List.isPrefixOf, ha2]
    simp only [hcond, Bool.false_eq_true, if_false]
    have hih : listSplit SEP (p' ++ SEP ++ rest) = p' :: listSplit SEP rest := by
      apply ih
      · exact fun hi => hp1 (List.infix_cons hi)
      · cases p' with
        | nil => simp
        | cons b p'' =>
          exact fun he => hp2 (by rw [List.getLast?_cons_cons]; exact he)
    rw [hih]

theorem listSplit_sep_single (p : List Char) (hp1 : ¬ (SEP <:+: p)) :
    listSplit SEP p = [p] := by
  induction p with
  | nil => rfl
  | cons a p' ih =>
    rw [listSplit_cons]
    have hcond : (SEP.isPrefixOf (a :: p')) = false := by
      by_cases hc : (SEP.isPrefixOf (a :: p')) = true
      · exact absurd ((List.isPrefixOf_iff_prefix.mp hc).isInfix) hp1
      · exact Bool.eq_false_iff.mpr hc
    simp only [hcond, Bool.false_eq_true, if_false]
    rw [ih (fun hi => hp1 (List.infix_cons hi))]

theorem listSplit_joinSep (parts : List (List Char)) (hne : parts ≠ [])
    (h : ∀ p ∈ parts, ¬ (SEP <:+: p) ∧ p.getLast? ≠ some '_') :
    listSplit SEP (joinSep SEP parts) = parts := by
  induction parts with
  | nil => exact absurd rfl hne
  | cons p ps ih =>
    cases ps with
    | nil => exact listSplit_sep_single p (h p (List.mem_cons_self p [])).1
    | cons q qs =>
      rw [joinSep_cons2]
      rw [listSplit_sep_step p _ (h p (List.mem_cons_self _ _)).1 (h p (List.mem_cons_self _ _)).2]
      rw [ih (by simp) (fun r hr => h r (List.mem_cons_of_mem p hr))]

theorem mem_of_getLast?_some {l : List Char} {a : Char} (h : l.getLast? = some a) :
    a ∈ l := by
  rcases List.mem_getLast?_eq_getLast (Option.mem_def.mpr h) with ⟨hne, hx⟩
  rw [hx]
  exact List.getLast_mem hne

theorem infix_append_cases {pat a b : List Char} (h : pat <:+: a ++ b) :
    pat <:+: a ∨ pat <:+: b ∨
      ∃ a1 b1, pat = a1 ++ b1 ∧ a1 ≠ [] ∧ b1 ≠ [] ∧ a1 <:+ a ∧ b1 <+: b := by
  obtain ⟨s, t, hst⟩ := h
  by_cases h1 : s.length + pat.length ≤ a.length
  · left
    have hsplit : (s ++ pat) ++ t =
        a.take (s.length + pat.length) ++ (a.drop (s.length + pat.length) ++ b) := by
      rw [← List.append_assoc, List.take_append_drop]
      exact hst
    have hlen1 : (s ++ pat).length = (a.take (s.length + pat.length)).length := by
      rw [List.length_append, List.length_take, min_eq_left h1]
    have hinj := List.append_inj hsplit hlen1
    refine ⟨s, a.drop (s.length + pat.length), ?_⟩
    rw [show s ++ pat ++ a.drop (s.length + pat.length) =
      (s ++ pat) ++ a.drop (s.length + pat.length) from rfl, hinj.1]
    exact List.take_append_drop _ _
  · by_cases h2 : a.length ≤ s.length
    · right; left
      have hsplit : s.take a.length ++ (s.drop a.length ++ (pat ++ t)) = a ++ b := by
        rw [← List.append_assoc, List.take_append_drop, ← List.append_assoc]
        exact hst
      have hlen2 : (s.take a.length).length = a.length := by
        rw [List.length_take, min_eq_left h2]
      have hinj := List.append_inj hsplit hlen2
      refine ⟨s.drop a.length, t, ?_⟩
      rw [List.append_assoc]
      exact hinj.2
    · right; right
      have hk : a.length - s.length < pat.length := by omega
      have hk0 : 0 < a.length - s.length := by omega
      have hsplit : (s ++ pat.take (a.length - s.length)) ++
          (pat.drop (a.length - s.length) ++ t) = a ++ b := by
        rw [List.append_assoc, ← List.append_assoc (pat.take (a.length - s.length)),
          List.take_append_drop, ← List.append_assoc]
        exact hst
      have hlen3 : (s ++ pat.take (a.length - s.length)).length = a.length := by
        rw [List.length_append, List.length_take, min_eq_left (le_of_lt hk)]
        omega
      have hinj := List.append_inj hsplit (by rw [hlen3])
      exact ⟨pat.take (a.length - s.length), pat.drop (a.length - s.length),
        (List.take_append_drop _ pat).symm,
        fun he => by
          have hl := congrArg List.length he
          rw [List.length_take, min_eq_left (le_of_lt hk)] at hl
          simp at hl
          omega,
        fun he => by
          have hl := congrArg List.length he
          rw [List.length_drop] at hl
          simp at hl
          omega,
        ⟨s, hinj.1⟩, ⟨t, hinj.2⟩⟩

theorem infix_joinSep {pat : List Char} (hne : pat ≠ []) (hno : '_' ∉ pat) :
    ∀ parts : List (List Char), pat <:+: joinSep SEP parts → ∃ p ∈ parts, pat <:+: p := by
  intro parts
  induction parts with
  | nil =>
    intro h
    exact absurd (List.eq_nil_of_infix_nil h) hne
  | cons p ps ih =>
    intro h
    cases ps with
    | nil => exact ⟨p, List.mem_cons_self p [], h⟩
    | cons q qs =>
      rw [joinSep_cons2] at h
      rcases infix_append_cases h with h1 | h1 | ⟨a1, b1, hpat, ha1, hb1, hsuf, hpre⟩
      · rcases infix_append_cases h1 with h2 | h2 | ⟨a1, b1, hpat, ha1, hb1, hsuf, hpre⟩
        · exact ⟨p, List.mem_cons_self p _, h2⟩
        · exfalso
          have hsub := h2.sublist.subset
          cases pat with
          | nil => exact hne rfl
          | cons c cs =>
            have hc := hsub (List.mem_cons_self c cs)
            simp [SEP] at hc
            exact hno (by simp [hc])
        · exfalso
          cases b1 with
          | nil => exact hb1 rfl
          | cons c cs =>
            rcases hpre with ⟨t2, ht2⟩
            have hc : c = '_' := by
              have := congrArg (fun l => l.head?) ht2
              simp [SEP] at this
              exact this
            apply hno
            rw [hpat]
            exact List.mem_append.mpr (Or.inr (by simp [hc]))
      · rcases ih h1 with ⟨r, hr, hir⟩
        exact ⟨r, List.mem_cons_of_mem p hr, hir⟩
      · exfalso
        rcases hsuf with ⟨s2, hs2⟩
        have hlast : a1.getLast? = some '_' := by
          have h3 : (s2 ++ a1).getLast? = some '_' := by
            rw [hs2, List.getLast?_append]
            simp [SEP]
          rw [List.getLast?_append] at h3
          cases ha : a1.getLast? with
          | none =>
            exfalso
            exact ha1 (List.getLast?_eq_none_iff.mp ha)
          | some c =>
            rw [ha] at h3
            simpa using h3
        apply hno
        rw [hpat]
        exact List.mem_append.mpr (Or.inl (mem_of_getLast?_some hlast))

theorem infix_of_map {f : Char → Char} {pat l : List Char} (h : pat <:+: l.map f) :
    ∃ m, m <:+: l ∧ m.map f = pat := by
  obtain ⟨s, t, hst⟩ := h
  refine ⟨(l.drop s.length).take pat.length, ?_, ?_⟩
  · have h1 : (l.drop s.length).take pat.length <+: l.drop s.length :=
      ⟨(l.drop s.length).drop pat.length, List.take_append_drop _ _⟩
    exact h1.isInfix.trans (List.drop_suffix _ _).isInfix
  · rw [List.map_take, List.map_drop, ← hst, List.append_assoc, List.drop_left,
      List.take_left]

theorem part_conditions (seg : List Char) (hg : goodSeg seg) :
    ¬ (SEP <:+: seg.map spaceUnd) ∧ (seg.map spaceUnd).getLast? ≠ some '_' ∧
      ¬ (".ghost".data <:+: seg.map spaceUnd) := by
  obtain ⟨hu, hs, hg6, hsp2, hlast⟩ := hg
  refine ⟨?_, ?_, ?_⟩
  · intro hi
    rcases infix_of_map hi with ⟨m, hmi, hmf⟩
    cases m with
    | nil => simp [SEP] at hmf
    | cons c1 m1 =>
      cases m1 with
      | nil => simp [SEP] at hmf
      | cons c2 m2 =>
        cases m2 with
        | cons c3 m3 => simp [SEP] at hmf
        | nil =>
          simp [SEP] at hmf
          have hmem := hmi.sublist.subset
          have hc1 : c1 = ' ' := by
            by_cases h' : c1 = ' '
            · exact h'
            · exfalso
              have h2 := hmf.1
              simp only [spaceUnd, h', if_false] at h2
              exact hu (h2 ▸ hmem (by simp))
          have hc2 : c2 = ' ' := by
            by_cases h' : c2 = ' '
            · exact h'
            · exfalso
              have h2 := hmf.2
              simp only [spaceUnd, h', if_false] at h2
              exact hu (h2 ▸ hmem (by simp))
          subst hc1
          subst hc2
          exact hsp2 hmi
  · rw [List.getLast?_map]
    intro he
    cases hl : seg.getLast? with
    | none => rw [hl] at he; simp at he
    | some c =>
      rw [hl] at he
      simp only [Option.map_some'] at he
      by_cases hc : c = ' '
      · exact hlast (hc ▸ hl)
      · simp only [spaceUnd, hc, if_false] at he
        have he2 : c = '_' := by simpa using he
        exact hu (he2 ▸ mem_of_getLast?_some hl)
  · intro hi
    rcases infix_of_map hi with ⟨m, hmi, hmf⟩
    have hid : ∀ c ∈ m, spaceUnd c = c := by
      intro c hc
      by_cases h' : c = ' '
      · exfalso
        have hmem2 : ('_' : Char) ∈ ".ghost".data := by
          rw [← hmf]
          exact List.mem_map.mpr ⟨c, hc, by simp [spaceUnd, h']⟩
        exact absurd hmem2 (by decide)
      · simp [spaceUnd, h']
    have hmm2 : m.map spaceUnd = m := by
      have h3 : m.map spaceUnd = m.map (fun a => a) := List.map_congr_left hid
      rw [h3, List.map_id']
    have hmg : m = ".ghost".data := by rw [← hmm2, hmf]
    exact hg6 (hmg ▸ hmi)

theorem stem_no_ext (segs : List (List Char)) (h : ∀ seg ∈ segs, goodSeg seg) :
    ¬ (".ghost".data <:+: joinSep SEP (segs.map (List.map spaceUnd))) := by
  intro hi
  rcases infix_joinSep (by decide) (by decide) _ hi with ⟨p, hp, hip⟩
  rcases List.mem_map.mp hp with ⟨seg, hseg, rfl⟩
  exact (part_conditions seg (h seg hseg)).2.2 hip

/-- C4 counterexample: the single-segment sequence ["a  b"] (two adjacent
spaces) contains neither the reserved separator token nor any underscore,
yet decode(encode(["a  b"])) = ["a", "b"]: the space-to-underscore step of
the encoder manufactures the separator. -/
theorem C4_counterexample :
    ('_' ∉ ['a', ' ', ' ', 'b']) ∧ ¬ (SEP <:+: ['a', ' ', ' ', 'b']) ∧
    filename_to_parts (path_to_filename (joinSep ['/'] [['a', ' ', ' ', 'b']])) ≠
      [['a', ' ', ' ', 'b']] := by
  exact ⟨by decide, by decide, by decide⟩

/-- C4 (amended): for every nonempty sequence of segments in which no segment
contains an underscore, a slash, the substring ".ghost", two adjacent spaces,
or a trailing space, decoding the encoded filename returns the original
segment sequence. -/
theorem C4_decode_encode_roundtrip (segs : List (List Char)) (hne : segs ≠ [])
    (h : ∀ seg ∈ segs, goodSeg seg) :
    filename_to_parts (path_to_filename (joinSep ['/'] segs)) = segs := by
  have e1 : listReplace ['/'] SEP (joinSep ['/'] segs) = joinSep SEP segs := by
    rw [listReplace_single]
    exact charSubst_joinSep '/' SEP segs (fun seg hs => (h seg hs).2.1)
  have hsepmap : SEP.map spaceUnd = SEP := by decide
  have e2 : listReplace [' '] ['_'] (joinSep SEP segs) =
      joinSep SEP (segs.map (List.map spaceUnd)) := by
    rw [listReplace_single, charSubst_eq_map]
    exact map_joinSep spaceUnd SEP segs hsepmap
  unfold path_to_filename filename_to_parts
  rw [e1, e2, listReplace_ext _ (stem_no_ext segs h)]
  rw [listSplit_joinSep (segs.map (List.map spaceUnd))
      (fun hmap => hne (List.map_eq_nil_iff.mp hmap))
      (fun p hp => by
        rcases List.mem_map.mp hp with ⟨seg, hseg, rfl⟩
        exact ⟨(part_conditions seg (h seg hseg)).1,
          (part_conditions seg (h seg hseg)).2.1⟩)]
  rw [List.map_map]
  have h5 : ∀ seg ∈ segs, (listReplace ['_'] [' '] ∘ List.map spaceUnd) seg = seg := by
    intro seg hs
    simp only [Function.comp_apply]
    rw [listReplace_single, charSubst_eq_map, List.map_map]
    have h7 : ∀ c ∈ seg, ((fun d => if d = '_' then ' ' else d) ∘ spaceUnd) c = c := by
      intro c hc
      by_cases h' : c = ' '
      · simp [spaceUnd, Function.comp, h']
      · have hcu : ¬ c = '_' := fun he => (h seg hs).1 (he ▸ hc)
        simp [spaceUnd, Function.comp, h', hcu]
    have h8 := List.map_congr_left h7
    rw [h8, List.map_id']
  have h6 := List.map_congr_left h5
  rw [h6, List.map_id']

theorem C4_decode_encode_roundtrip_witness :
    ([['P', 'r', 'o', 'j', 'e', 'c', 't', 's'], ['A', 'l', 'p', 'h', 'a', ' ', 'B']] ≠
      ([] : List (List Char))) ∧
    (∀ seg ∈ [['P', 'r', 'o', 'j', 'e', 'c', 't', 's'], ['A', 'l', 'p', 'h', 'a', ' ', 'B']],
      goodSeg seg) ∧
    filename_to_parts (path_to_filename (joinSep ['/']
        [['P', 'r', 'o', 'j', 'e', 'c', 't', 's'], ['A', 'l', 'p', 'h', 'a', ' ', 'B']])) =
      [['P', 'r', 'o', 'j', 'e', 'c', 't', 's'], ['A', 'l', 'p', 'h', 'a', ' ', 'B']] :=
  ⟨by decide, by decide,
   C4_decode_encode_roundtrip
     [['P', 'r', 'o', 'j', 'e', 'c', 't', 's'], ['A', 'l', 'p', 'h', 'a', ' ', 'B']]
     (by decide) (by decide)⟩

end GhostWiki
